import Mathlib

/-!
Verification development for the solscan-cli relationship-graph engine.

Shallow embedding of the two core modules:
* `src/web.rs` (`SolWeb::crawl` and its helpers) — a budgeted breadth-first
  wallet crawler that incrementally builds a bidirectional wallet/token index;
* `src/analyze.rs` (`WalletGraph`) — pure analysis over supplied holdings:
  Jaccard similarity, whale ranking, non-transitive clustering.

Modelling conventions:
* `HashMap<String, Vec<String>>` is modelled as a function
  `String → Option (List String)` (`none` = key absent);
* `HashSet<String>` holdings are modelled as `Finset String`;
* the crawler's `visited : HashSet<String>` is modelled as a `List String`
  recording visit order (the code inserts a wallet only when absent, so the
  list is duplicate-free by construction and its length is the set size);
* fallible RPC lookups are modelled as `Option`-valued functions on the
  injected environment (`none` = the `Err`/decode-failure case);
* `f64` balances are modelled as `Option ℚ`, where `none` stands for NaN
  (the one value `partial_cmp` cannot order); a comparison involving `none`
  yields `Option.none`, modelling the `unwrap` panic inside `sort_by`.
-/

/-- The injected data source (`SolWeb`'s RPC endpoint).
`getTokens w` models `get_tokens(w)` (`none` = the Err case, degraded to `[]`
via `unwrap_or_default`).  `largestAccounts t` models the raw
`getTokenLargestAccounts` response value list, each element being the optional
`address` field; `accountOwner a` models `get_account_owner(a)`
(`none` = "no owner"). -/
structure Env where
  getTokens : String → Option (List String)
  largestAccounts : String → Option (List (Option String))
  accountOwner : String → Option String

/-- `SolWeb::get_largest_accounts`: take the first 5 raw accounts, keep those
with an `address` string whose owner resolves. -/
def getLargestAccounts (env : Env) (mint : String) : Option (List String) :=
  (env.largestAccounts mint).map fun accs =>
    (accs.take 5).filterMap fun a => a.bind env.accountOwner

/-- The crawler's mutable state: the two index maps of `SolWeb`, the visited
set (as the ordered list of visits) and the FIFO frontier `queue`. -/
structure CrawlState where
  walletTokens : String → Option (List String)
  tokenHolders : String → Option (List String)
  visited : List String
  queue : List String

/-- `self.token_holders.entry(mint).or_default().push(v)`. -/
def thPush (m : String → Option (List String)) (k v : String) :
    String → Option (List String) :=
  fun x => if x = k then some ((m k).getD [] ++ [v]) else m x

/-- `HashMap::insert` (overwrite or create). -/
def wtInsert (m : String → Option (List String)) (k : String) (v : List String) :
    String → Option (List String) :=
  fun x => if x = k then some v else m x

/-- Body of the `for holder_wallet in &holders` loop (web.rs:55-60): enqueue
`h` when it is not yet visited, then unconditionally append `h` to
`tokenHolders[mint]`. -/
def holderStep (mint : String) (s : CrawlState) (h : String) : CrawlState :=
  let s2 : CrawlState :=
    if h ∈ s.visited then s else { s with queue := s.queue ++ [h] }
  { s2 with tokenHolders := thPush s2.tokenHolders mint h }

/-- Body of the `for mint in &tokens` loop in `SolWeb::crawl` (web.rs:49-63):
append `w` to `tokenHolders[mint]`; if the holder sequence is not now longer
than 3 (raw length, duplicates included), query the largest accounts and run
`holderStep` on each resolved owner. -/
def processToken (env : Env) (w : String) (st : CrawlState) (mint : String) :
    CrawlState :=
  let st1 : CrawlState := { st with tokenHolders := thPush st.tokenHolders mint w }
  if 3 < ((st1.tokenHolders mint).getD []).length then st1
  else
    match getLargestAccounts env mint with
    | none => st1
    | some holders => holders.foldl (holderStep mint) st1

/-- One visit of wallet `w` (web.rs:43-65): fetch its tokens (failure degrades
to `[]`), process each token, then record `walletTokens[w] = tokens`. -/
def visitWallet (env : Env) (w : String) (st : CrawlState) : CrawlState :=
  let tokens := (env.getTokens w).getD []
  let st1 := tokens.foldl (processToken env w) st
  { st1 with walletTokens := wtInsert st1.walletTokens w tokens }

/-- The `while let Some(wallet) = queue.pop_front()` loop of `SolWeb::crawl`
(web.rs:36-69).  The loop breaks — terminating the whole crawl — as soon as
the dequeued wallet is already visited or the visited set has reached
`maxDepth`; otherwise the wallet is marked visited and processed.  `fuel` is
a structural bound: every recursive call grows `visited` by one and recursion
is entered only while `visited.length < maxDepth`, so any `fuel` exceeding
`maxDepth - visited.length` makes the `0` case unreachable. -/
def crawlLoop (env : Env) (maxDepth : Nat) : Nat → CrawlState → CrawlState
  | 0, st => st
  | fuel + 1, st =>
    match st.queue with
    | [] => st
    | w :: rest =>
      if w ∈ st.visited ∨ maxDepth ≤ st.visited.length then
        { st with queue := rest }
      else
        crawlLoop env maxDepth fuel
          (visitWallet env w { st with visited := st.visited ++ [w], queue := rest })

/-- `SolWeb::crawl(start)` on a freshly constructed `SolWeb` with
`max_depth = maxDepth`: empty maps, empty visited set, frontier `[start]`. -/
def crawl (env : Env) (start : String) (maxDepth : Nat) : CrawlState :=
  crawlLoop env maxDepth (maxDepth + 1)
    { walletTokens := fun _ => none
      tokenHolders := fun _ => none
      visited := []
      queue := [start] }

/-! ## Analysis engine (`src/analyze.rs`) -/

/-- `WalletGraph`: caller-supplied holdings and balances.  The association
lists model the two `HashMap`s; their order stands for the (arbitrary) map
iteration order.  A balance of `none` models an f64 NaN. -/
structure WalletGraph where
  holdings : List (String × Finset String)
  balances : List (String × Option ℚ)

/-- `self.holdings.get(w).unwrap_or(&empty)`. -/
def holdingsOf (g : WalletGraph) (w : String) : Finset String :=
  (g.holdings.lookup w).getD ∅

/-- `WalletGraph::similarity`: Jaccard index of the two holdings sets,
`0` when the union is empty (computed over `ℚ`; the Rust f64 computation is
exact on these small integer counts). -/
def similarity (g : WalletGraph) (w1 w2 : String) : ℚ :=
  let s1 := holdingsOf g w1
  let s2 := holdingsOf g w2
  let i := (s1 ∩ s2).card
  let u := (s1 ∪ s2).card
  if u = 0 then 0 else (i : ℚ) / (u : ℚ)

/-- The comparator closure of `WalletGraph::whales`:
`|a, b| b.1.partial_cmp(&a.1)` — `none` when either balance is NaN, otherwise
the order of `b`'s balance against `a`'s (so ascending-by-comparator is
descending-by-balance). -/
def whaleCmp (a b : String × Option ℚ) : Option Ordering :=
  match b.2, a.2 with
  | some x, some y => some (compare x y)
  | _, _ => none

/-- Insert `x` into an (already sorted) list using a fallible comparator:
`x` goes before the first element it does not compare `gt` against.  A `none`
comparison aborts the whole sort (`unwrap` panic). -/
def insertM (cmp : α → α → Option Ordering) (x : α) : List α → Option (List α)
  | [] => some [x]
  | y :: ys =>
    match cmp x y with
    | none => none
    | some Ordering.gt => (insertM cmp x ys).map (fun l => y :: l)
    | some _ => some (x :: y :: ys)

/-- Stable insertion sort with a fallible comparator, modelling
`slice::sort_by` over the comparator; `none` models the panic of the
`unwrap` inside the comparator closure. -/
def sortM (cmp : α → α → Option Ordering) : List α → Option (List α)
  | [] => some []
  | x :: xs => (sortM cmp xs).bind (insertM cmp x)

/-- `WalletGraph::whales`: collect the balances, sort by balance descending
(stable, so ties keep the input order), truncate to `n`.  `none` models the
panic on an incomparable (NaN) balance pair. -/
def whales (g : WalletGraph) (n : Nat) : Option (List (String × Option ℚ)) :=
  (sortM whaleCmp g.balances).map (List.take n)

/-- Inner `for j in (i+1)..` loop of `WalletGraph::clusters`: scan the
remaining wallets, adding every unvisited one sharing at least `minShared`
tokens with the seed's holdings `seedH` to the cluster (and to `visited`).
Returns the collected non-seed members (in scan order) and the updated
visited set. -/
def clusterScan (h : String → Finset String) (minShared : Nat) (seedH : Finset String)
    (visited : List String) : List String → List String × List String
  | [] => ([], visited)
  | wj :: rest =>
    if wj ∈ visited then clusterScan h minShared seedH visited rest
    else if minShared ≤ (seedH ∩ h wj).card then
      let p := clusterScan h minShared seedH (wj :: visited) rest
      (wj :: p.1, p.2)
    else clusterScan h minShared seedH visited rest

/-- Outer loop of `WalletGraph::clusters`: each unvisited wallet seeds a
candidate cluster built by `clusterScan`; the cluster is emitted (and the
seed marked visited) only when it gained at least one non-seed member. -/
def clustersLoop (h : String → Finset String) (minShared : Nat) :
    List String → List String → List (List String)
  | _, [] => []
  | visited, wi :: rest =>
    if wi ∈ visited then clustersLoop h minShared visited rest
    else
      let p := clusterScan h minShared (h wi) visited rest
      if p.1.isEmpty then clustersLoop h minShared p.2 rest
      else (wi :: p.1) :: clustersLoop h minShared (wi :: p.2) rest

/-- `WalletGraph::clusters(min_shared)`: iterate the holdings keys in map
order (here: list order). -/
def clusters (g : WalletGraph) (minShared : Nat) : List (List String) :=
  clustersLoop (holdingsOf g) minShared [] (g.holdings.map Prod.fst)

/-! ## Concrete data used by counterexamples and witnesses -/

/-- A data source in which the seed `S` holds `t1, t2`; `t1`'s largest holder
resolves to `B` and `t2`'s largest holders resolve to `B` and `C` — so `B` is
enqueued twice before it is first visited. -/
def env1 : Env :=
  { getTokens := fun w => if w = "S" then some ["t1", "t2"] else some []
    largestAccounts := fun t =>
      if t = "t1" then some [some "a1"]
      else if t = "t2" then some [some "a2", some "a3"] else some []
    accountOwner := fun a =>
      if a = "a1" then some "B" else if a = "a2" then some "B"
      else if a = "a3" then some "C" else none }

/-- A data source in which `S`, `H1` and `H2` all hold the single token `t`,
whose two largest accounts resolve to `H1` and `H2`. -/
def env3 : Env :=
  { getTokens := fun w =>
      if w = "S" ∨ w = "H1" ∨ w = "H2" then some ["t"] else some []
    largestAccounts := fun t =>
      if t = "t" then some [some "a1", some "a2"] else none
    accountOwner := fun a =>
      if a = "a1" then some "H1" else if a = "a2" then some "H2" else none }

/-- The crawler state reached under `env3` at the moment the visit of `H1`
processes token `t` (after `S` has been visited): `S` recorded with holdings
`[t]`, holder sequence `[S, H1, H2]` for `t`, `H2` still on the frontier. -/
def st3 : CrawlState :=
  { walletTokens := fun x => if x = "S" then some ["t"] else none
    tokenHolders := fun x => if x = "t" then some ["S", "H1", "H2"] else none
    visited := ["S", "H1"]
    queue := ["H2"] }

/-- Wallets `A = {x, y}`, `B = {x}`, `C = {y}`: `B` and `C` each share a token
with `A` but share none with each other. -/
def gEx : WalletGraph :=
  { holdings := [("A", {"x", "y"}), ("B", {"x"}), ("C", {"y"})]
    balances := [] }

/-- Two equal balances supplied in the order `A, B`. -/
def gT1 : WalletGraph := { holdings := [], balances := [("A", some 1), ("B", some 1)] }

/-- The same balance mapping as `gT1`, iterated in the order `B, A`. -/
def gT2 : WalletGraph := { holdings := [], balances := [("B", some 1), ("A", some 1)] }

/-- A balance list containing a NaN balance (modelled as `none`). -/
def gNaN : WalletGraph := { holdings := [], balances := [("A", none), ("B", some 1)] }

/-- Three distinct comparable balances. -/
def gW : WalletGraph :=
  { holdings := [], balances := [("A", some 3), ("B", some 7), ("C", some 5)] }

/-- An environment in which every lookup fails. -/
def envFail : Env :=
  { getTokens := fun _ => none
    largestAccounts := fun _ => none
    accountOwner := fun _ => none }

/-! ## Basic helper lemmas -/

/-- Reading back the pushed key of `thPush`. -/
theorem thPush_get_same (m : String → Option (List String)) (k v : String) :
    ((thPush m k v k).getD []) = (m k).getD [] ++ [v] := by
  simp [thPush]

/-- A crawl-loop call on a state with an empty frontier returns it unchanged. -/
theorem crawlLoop_empty_queue (env : Env) (maxDepth fuel : Nat) (st : CrawlState)
    (h : st.queue = []) : crawlLoop env maxDepth fuel st = st := by
  cases fuel with
  | zero => rfl
  | succ n => simp [crawlLoop, h]

/-- Field-wise description of one `holderStep`. -/
theorem holderStep_fields (mint : String) (s : CrawlState) (h : String) :
    (holderStep mint s h).queue = (if h ∈ s.visited then s.queue else s.queue ++ [h])
    ∧ (holderStep mint s h).visited = s.visited
    ∧ (holderStep mint s h).walletTokens = s.walletTokens
    ∧ (holderStep mint s h).tokenHolders
        = thPush (if h ∈ s.visited then s else { s with queue := s.queue ++ [h] }).tokenHolders mint h := by
  by_cases hm : h ∈ s.visited <;> simp [holderStep, hm]

/-- Folding `holderStep` over a holder list: every holder is appended to the
mint's holder sequence, the unvisited ones are enqueued in order, and the
visited set and `walletTokens` are untouched. -/
theorem holderStep_foldl (mint : String) (hs : List String) : ∀ s : CrawlState,
    ((hs.foldl (holderStep mint) s).queue
        = s.queue ++ hs.filter (fun h => decide (h ∉ s.visited)))
    ∧ (((hs.foldl (holderStep mint) s).tokenHolders mint).getD []
        = ((s.tokenHolders mint)).getD [] ++ hs)
    ∧ (hs.foldl (holderStep mint) s).visited = s.visited
    ∧ (hs.foldl (holderStep mint) s).walletTokens = s.walletTokens := by
  induction hs with
  | nil => intro s; simp
  | cons h t ih =>
    intro s
    obtain ⟨ihq, iht, ihv, ihw⟩ := ih (holderStep mint s h)
    by_cases hm : h ∈ s.visited
    · have hstep : holderStep mint s h = { s with tokenHolders := thPush s.tokenHolders mint h } := by
        simp [holderStep, hm]
      rw [hstep] at ihq iht ihv ihw
      simp only [List.foldl_cons, hstep]
      refine ⟨?_, ?_, ?_, ?_⟩
      · simpa [hm] using ihq
      · simpa [thPush_get_same, List.append_assoc] using iht
      · simpa using ihv
      · simpa using ihw
    · have hstep : holderStep mint s h
          = { s with queue := s.queue ++ [h], tokenHolders := thPush s.tokenHolders mint h } := by
        simp [holderStep, hm]
      rw [hstep] at ihq iht ihv ihw
      simp only [List.foldl_cons, hstep]
      refine ⟨?_, ?_, ?_, ?_⟩
      · simpa [hm, List.append_assoc] using ihq
      · simpa [thPush_get_same, List.append_assoc] using iht
      · simpa using ihv
      · simpa using ihw

/-- `processToken` never touches the visited set or `walletTokens`. -/
theorem processToken_pres (env : Env) (w : String) (st : CrawlState) (mint : String) :
    (processToken env w st mint).visited = st.visited
    ∧ (processToken env w st mint).walletTokens = st.walletTokens := by
  simp only [processToken]
  split
  · exact ⟨rfl, rfl⟩
  · split
    · exact ⟨rfl, rfl⟩
    · rename_i holders _
      obtain ⟨_, _, hv, hw⟩ :=
        holderStep_foldl mint holders { st with tokenHolders := thPush st.tokenHolders mint w }
      exact ⟨hv, hw⟩

/-- Folding `processToken` over a token list never touches the visited set or
`walletTokens`. -/
theorem processToken_foldl_pres (env : Env) (w : String) (tokens : List String) :
    ∀ st : CrawlState,
    (tokens.foldl (processToken env w) st).visited = st.visited
    ∧ (tokens.foldl (processToken env w) st).walletTokens = st.walletTokens := by
  induction tokens with
  | nil => intro st; exact ⟨rfl, rfl⟩
  | cons m t ih =>
    intro st
    obtain ⟨ihv, ihw⟩ := ih (processToken env w st m)
    obtain ⟨hv, hw⟩ := processToken_pres env w st m
    simp only [List.foldl_cons]
    exact ⟨ihv.trans hv, ihw.trans hw⟩

/-- A wallet visit leaves `visited` unchanged and records exactly the fetched
token list for `w` in `walletTokens`. -/
theorem visitWallet_fields (env : Env) (w : String) (st : CrawlState) :
    (visitWallet env w st).visited = st.visited
    ∧ (visitWallet env w st).walletTokens
        = wtInsert st.walletTokens w ((env.getTokens w).getD []) := by
  obtain ⟨hv, hw⟩ := processToken_foldl_pres env w ((env.getTokens w).getD []) st
  simp only [visitWallet]
  exact ⟨hv, by rw [hw]⟩

/-! ## Claim C8 — budget 0 -/

/-- Claim C8: for every seed wallet, a crawl invoked with budget 0 visits no
wallets and returns an empty index: both `walletTokens` and `tokenHolders`
are the empty map. -/
theorem crawl_budget_zero_empty (env : Env) (start : String) :
    (crawl env start 0).visited = []
    ∧ (crawl env start 0).walletTokens = (fun _ => none)
    ∧ (crawl env start 0).tokenHolders = (fun _ => none) :=
  ⟨rfl, rfl, rfl⟩

/-! ## Claim C1 — behaviour on dequeuing an already-visited wallet -/

/-- Claim C1 counterexample: under `env1` with budget 10, wallet `B` is
enqueued twice (as a largest holder of both `t1` and `t2`); on its second
dequeue the crawl terminates (`break`), leaving the discovered wallet `C` on
the frontier unvisited even though only 2 of the 10 budgeted visits were
used.  The claimed skip-and-continue behaviour would have visited `C`. -/
theorem crawl_env1_stops_early :
    (crawl env1 "S" 10).visited = ["S", "B"]
    ∧ (crawl env1 "S" 10).queue = ["C"]
    ∧ (crawl env1 "S" 10).visited.length < 10
    ∧ (crawl env1 "S" 10).walletTokens "C" = none := by decide

/-- Claim C1 (amended): when the dequeued wallet at the head of the frontier
is already in the visited set, the crawler terminates the entire crawl
immediately — consuming no budget and visiting nothing further — rather than
skipping the entry and continuing with the remaining frontier. -/
theorem crawlLoop_breaks_on_visited_dequeue (env : Env) (maxDepth fuel : Nat)
    (st : CrawlState) (w : String) (rest : List String)
    (hq : st.queue = w :: rest) (hv : w ∈ st.visited) :
    crawlLoop env maxDepth (fuel + 1) st = { st with queue := rest } := by
  simp only [crawlLoop, hq]
  rw [if_pos (Or.inl hv)]

/-- A crawl state whose frontier head `S` has already been visited. -/
def stW1 : CrawlState :=
  { walletTokens := fun _ => none
    tokenHolders := fun _ => none
    visited := ["S"]
    queue := ["S", "B"] }

/-- Witness for `crawlLoop_breaks_on_visited_dequeue` at the concrete state
`stW1`. -/
theorem crawlLoop_breaks_on_visited_dequeue_witness :
    stW1.queue = "S" :: ["B"] ∧ "S" ∈ stW1.visited
    ∧ crawlLoop envFail 5 3 stW1 = { stW1 with queue := ["B"] } :=
  ⟨rfl, by decide,
    crawlLoop_breaks_on_visited_dequeue envFail 5 2 stW1 "S" ["B"] rfl (by decide)⟩

/-! ## Claim C3 — the largest-holders query guard -/

/-- The crawl state reached under `env3` just before the visit of `H1`
processes token `t` with only `[S]` recorded as holder. -/
def stW3 : CrawlState :=
  { walletTokens := fun x => if x = "S" then some ["t"] else none
    tokenHolders := fun x => if x = "t" then some ["S"] else none
    visited := ["S"]
    queue := [] }

/-- Claim C3 counterexample: in the crawl under `env3`, when the visit of `H1`
processes token `t` the holder sequence (after appending `H1`) is
`[S, H1, H2, H1]` — 4 raw entries but only 3 distinct wallets.  The code
skips the largest-holders query (raw length > 3): the frontier is unchanged
and no holder is appended, although the query would have resolved holders
(`getLargestAccounts env3 "t" = some [H1, H2]`).  The claimed
distinct-count (≤ 3) condition would have issued it.  The final crawl
confirms the state is reached: `tokenHolders[t] = [S, H1, H2, H1, H2]`. -/
theorem processToken_skips_query_despite_few_distinct :
    (processToken env3 "H1" st3 "t").queue = ["H2"]
    ∧ ((processToken env3 "H1" st3 "t").tokenHolders "t").getD [] = ["S", "H1", "H2", "H1"]
    ∧ (["S", "H1", "H2", "H1"] : List String).dedup.length ≤ 3
    ∧ getLargestAccounts env3 "t" = some ["H1", "H2"]
    ∧ ((crawl env3 "S" 10).tokenHolders "t").getD [] = ["S", "H1", "H2", "H1", "H2"] := by
  decide

/-- Claim C3 (amended): the largest-holders query for `t` is issued iff the
raw length of the `tokenHolders[t]` sequence — duplicates included — after
appending the visiting wallet `w` is at most 3 (not the distinct-wallet
count).  When issued, at most 5 raw largest accounts are considered, each
resolved holder is enqueued iff not yet visited, and every resolved holder is
unconditionally appended to `tokenHolders[t]`. -/
theorem processToken_query_on_raw_length (env : Env) (w mint : String) (st : CrawlState) :
    (3 < ((thPush st.tokenHolders mint w mint).getD []).length →
      processToken env w st mint = { st with tokenHolders := thPush st.tokenHolders mint w })
    ∧ (((thPush st.tokenHolders mint w mint).getD []).length ≤ 3 →
      ∀ accs, env.largestAccounts mint = some accs →
        ((accs.take 5).filterMap (fun a => a.bind env.accountOwner)).length ≤ 5
        ∧ (processToken env w st mint).queue
            = st.queue ++ ((accs.take 5).filterMap (fun a => a.bind env.accountOwner)).filter
                (fun h => decide (h ∉ st.visited))
        ∧ ((processToken env w st mint).tokenHolders mint).getD []
            = (thPush st.tokenHolders mint w mint).getD []
              ++ (accs.take 5).filterMap (fun a => a.bind env.accountOwner)
        ∧ (processToken env w st mint).visited = st.visited
        ∧ (processToken env w st mint).walletTokens = st.walletTokens) := by
  constructor
  · intro hg
    simp only [processToken]
    rw [if_pos hg]
  · intro hg accs hacc
    have hge : getLargestAccounts env mint
        = some ((accs.take 5).filterMap (fun a => a.bind env.accountOwner)) := by
      simp [getLargestAccounts, hacc]
    have hlen : ((accs.take 5).filterMap (fun a => a.bind env.accountOwner)).length ≤ 5 := by
      calc ((accs.take 5).filterMap (fun a => a.bind env.accountOwner)).length
          ≤ (accs.take 5).length := List.length_filterMap_le _ _
        _ ≤ 5 := List.length_take_le _ _
    obtain ⟨hq, ht, hv, hw⟩ :=
      holderStep_foldl mint ((accs.take 5).filterMap (fun a => a.bind env.accountOwner))
        { st with tokenHolders := thPush st.tokenHolders mint w }
    have hpt : processToken env w st mint
        = ((accs.take 5).filterMap (fun a => a.bind env.accountOwner)).foldl (holderStep mint)
            { st with tokenHolders := thPush st.tokenHolders mint w } := by
      simp only [processToken]
      rw [if_neg (not_lt.mpr hg), hge]
    rw [hpt]
    refine ⟨hlen, ?_, ?_, hv, hw⟩
    · simpa using hq
    · simpa [thPush_get_same] using ht

/-- Witness for `processToken_query_on_raw_length` on the query branch: at
`stW3` the raw holder length after appending `H1` is 2 ≤ 3, so the query is
issued, both resolved owners are appended, and the unvisited ones enqueued. -/
theorem processToken_query_on_raw_length_witness :
    ((thPush stW3.tokenHolders "t" "H1" "t").getD []).length ≤ 3
    ∧ env3.largestAccounts "t" = some [some "a1", some "a2"]
    ∧ ((([some "a1", some "a2"] : List (Option String)).take 5).filterMap
          (fun a => a.bind env3.accountOwner)).length ≤ 5
    ∧ (processToken env3 "H1" stW3 "t").queue
        = stW3.queue ++ ((([some "a1", some "a2"] : List (Option String)).take 5).filterMap
            (fun a => a.bind env3.accountOwner)).filter (fun h => decide (h ∉ stW3.visited))
    ∧ ((processToken env3 "H1" stW3 "t").tokenHolders "t").getD []
        = (thPush stW3.tokenHolders "t" "H1" "t").getD []
          ++ (([some "a1", some "a2"] : List (Option String)).take 5).filterMap
              (fun a => a.bind env3.accountOwner)
    ∧ (processToken env3 "H1" stW3 "t").visited = stW3.visited
    ∧ (processToken env3 "H1" stW3 "t").walletTokens = stW3.walletTokens := by
  have h := (processToken_query_on_raw_length env3 "H1" "t" stW3).2 (by decide)
    [some "a1", some "a2"] rfl
  exact ⟨by decide, rfl, h.1, h.2.1, h.2.2.1, h.2.2.2.1, h.2.2.2.2⟩

/-! ## Claim C5 — similarity algebra -/

/-- Claim C5: similarity is symmetric; a wallet's self-similarity is 1 when
its holdings are non-empty; similarity of two empty-holdings wallets is 0;
and a wallet absent from the supplied mapping is treated as holding the
empty set rather than being an error. -/
theorem similarity_props (g : WalletGraph) (a b : String) :
    similarity g a b = similarity g b a
    ∧ (holdingsOf g a ≠ ∅ → similarity g a a = 1)
    ∧ (holdingsOf g a = ∅ → holdingsOf g b = ∅ → similarity g a b = 0)
    ∧ (g.holdings.lookup a = none → holdingsOf g a = ∅) := by
  refine ⟨?_, ?_, ?_, ?_⟩
  · simp only [similarity]
    rw [Finset.inter_comm, Finset.union_comm]
  · intro h
    have hc : (holdingsOf g a).card ≠ 0 := by
      simpa [Finset.card_eq_zero] using h
    simp only [similarity, Finset.inter_self, Finset.union_self]
    rw [if_neg hc]
    exact div_self (by exact_mod_cast hc)
  · intro ha hb
    simp [similarity, ha, hb]
  · intro h
    simp [holdingsOf, h]

/-- Witness for `similarity_props` on `gEx`: the self-similarity and
missing-wallet clauses at concrete wallets. -/
theorem similarity_props_witness :
    holdingsOf gEx "A" ≠ ∅ ∧ similarity gEx "A" "A" = 1
    ∧ gEx.holdings.lookup "D" = none ∧ holdingsOf gEx "D" = ∅
    ∧ holdingsOf gEx "Z" = ∅ ∧ similarity gEx "D" "Z" = 0 :=
  ⟨by decide, (similarity_props gEx "A" "A").2.1 (by decide),
   by decide, (similarity_props gEx "D" "Z").2.2.2 (by decide),
   by decide, (similarity_props gEx "D" "Z").2.2.1 (by decide) (by decide)⟩

/-! ## Claim C6 — lookup failures degrade, never abort -/

/-- Claim C6: lookup failures degrade to empty results and never abort the
crawl (the embedding of `crawl` is a total function; a failed
`get_largest_accounts` degrades to no holder expansion).  In particular when
the seed's holdings lookup fails, the crawl completes with
`walletTokens = {start ↦ ∅}`, `tokenHolders = {}`, a single visit, and
terminates with an empty frontier. -/
theorem crawl_degrades_seed_lookup_failure (env : Env) (start : String) (maxDepth : Nat)
    (h1 : env.getTokens start = none) (h2 : 1 ≤ maxDepth) :
    (crawl env start maxDepth).walletTokens = (fun w => if w = start then some [] else none)
    ∧ (crawl env start maxDepth).tokenHolders = (fun _ => none)
    ∧ (crawl env start maxDepth).visited = [start]
    ∧ (crawl env start maxDepth).queue = []
    ∧ (∀ (st : CrawlState) (mint w : String), env.largestAccounts mint = none →
        processToken env w st mint = { st with tokenHolders := thPush st.tokenHolders mint w }) := by
  have hc : crawl env start maxDepth
      = { walletTokens := wtInsert (fun _ => none) start []
          tokenHolders := fun _ => none
          visited := [start]
          queue := [] } := by
    obtain ⟨k, rfl⟩ : ∃ k, maxDepth = k + 1 := ⟨maxDepth - 1, by omega⟩
    have e1 : crawl env start (k + 1)
        = crawlLoop env (k + 1) (k + 1)
            (visitWallet env start
              { walletTokens := fun _ => none, tokenHolders := fun _ => none,
                visited := [] ++ [start], queue := [] }) := by
      simp only [crawl, crawlLoop]
      rw [if_neg (by simp)]
    have e2 : visitWallet env start
          { walletTokens := fun _ => none, tokenHolders := fun _ => none,
            visited := [] ++ [start], queue := [] }
        = { walletTokens := wtInsert (fun _ => none) start []
            tokenHolders := fun _ => none, visited := [start], queue := [] } := by
      simp [visitWallet, h1]
    rw [e1, e2, crawlLoop_empty_queue _ _ _ _ rfl]
  refine ⟨?_, ?_, ?_, ?_, ?_⟩
  · rw [hc]; rfl
  · rw [hc]
  · rw [hc]
  · rw [hc]
  · intro st mint w hla
    have hge : getLargestAccounts env mint = none := by simp [getLargestAccounts, hla]
    simp only [processToken, hge]
    split <;> rfl

/-- Witness for `crawl_degrades_seed_lookup_failure`: the all-failing data
source with seed `S` and budget 1. -/
theorem crawl_degrades_seed_lookup_failure_witness :
    envFail.getTokens "S" = none ∧ 1 ≤ 1
    ∧ (crawl envFail "S" 1).walletTokens = (fun w => if w = "S" then some [] else none)
    ∧ (crawl envFail "S" 1).tokenHolders = (fun _ => none)
    ∧ (crawl envFail "S" 1).visited = ["S"]
    ∧ (crawl envFail "S" 1).queue = [] := by
  have h := crawl_degrades_seed_lookup_failure envFail "S" 1 rfl (by decide)
  exact ⟨rfl, by decide, h.1, h.2.1, h.2.2.1, h.2.2.2.1⟩

/-! ## Claim C2 — crawl invariants -/

/-- The crawl-loop invariant, holding at entry to every loop iteration: the
visited list stays within the budget, never records a wallet twice, and every
key of `walletTokens` is a visited wallet.  Since `visited` only grows by
appending, this entry-wise preservation gives the bound at every point during
the crawl. -/
theorem crawlLoop_inv (env : Env) (maxDepth : Nat) : ∀ (fuel : Nat) (st : CrawlState),
    st.visited.length ≤ maxDepth → st.visited.Nodup →
    (∀ w l, st.walletTokens w = some l → w ∈ st.visited) →
    ((crawlLoop env maxDepth fuel st).visited.length ≤ maxDepth
     ∧ (crawlLoop env maxDepth fuel st).visited.Nodup
     ∧ ∀ w l, (crawlLoop env maxDepth fuel st).walletTokens w = some l
         → w ∈ (crawlLoop env maxDepth fuel st).visited) := by
  intro fuel
  induction fuel with
  | zero => intro st h1 h2 h3; exact ⟨h1, h2, h3⟩
  | succ n ih =>
    intro st h1 h2 h3
    rcases hq : st.queue with _ | ⟨w, rest⟩
    · simp only [crawlLoop, hq]
      exact ⟨h1, h2, h3⟩
    · simp only [crawlLoop, hq]
      by_cases hc : w ∈ st.visited ∨ maxDepth ≤ st.visited.length
      · rw [if_pos hc]
        exact ⟨h1, h2, h3⟩
      · rw [if_neg hc]
        push_neg at hc
        obtain ⟨hw1, hw2⟩ := hc
        obtain ⟨hv, hw⟩ :=
          visitWallet_fields env w { st with visited := st.visited ++ [w], queue := rest }
        apply ih
        · rw [hv]
          simp only [List.length_append, List.length_singleton]
          omega
        · rw [hv]
          simp [List.nodup_append, h2, hw1]
        · intro x l hx
          rw [hw] at hx
          rw [hv]
          simp only [wtInsert] at hx
          by_cases hxw : x = w
          · subst hxw
            simp
          · rw [if_neg hxw] at hx
            exact List.mem_append_left _ (h3 x l hx)

/-- Claim C2: for every crawl the visited set has at most `maxDepth` (the
budget) elements, each address is added to it at most once (the visit list is
duplicate-free), and every key of `walletTokens` is a visited wallet.  The
supporting lemma `crawlLoop_inv` shows these hold at entry to every loop
iteration, hence at every point during as well as after the crawl. -/
theorem crawl_visited_invariants (env : Env) (start : String) (maxDepth : Nat) :
    (crawl env start maxDepth).visited.length ≤ maxDepth
    ∧ (crawl env start maxDepth).visited.Nodup
    ∧ ∀ w l, (crawl env start maxDepth).walletTokens w = some l
        → w ∈ (crawl env start maxDepth).visited :=
  crawlLoop_inv env maxDepth (maxDepth + 1) _ (by simp) (by simp)
    (fun _ _ h => Option.noConfusion h)

/-- Witness for `crawl_visited_invariants`: in the `env1` crawl the seed `S`
is a `walletTokens` key and is indeed visited. -/
theorem crawl_visited_invariants_witness :
    (crawl env1 "S" 10).walletTokens "S" = some ["t1", "t2"]
    ∧ "S" ∈ (crawl env1 "S" 10).visited :=
  ⟨by decide, (crawl_visited_invariants env1 "S" 10).2.2 "S" ["t1", "t2"] (by decide)⟩

/-! ## Whale ranking (claims C7, C9) -/

/-- "Sorted before" for the descending balance order: both balances are
comparable (non-NaN) and the first is at least the second. -/
def balGE (a b : String × Option ℚ) : Prop :=
  ∃ x y, a.2 = some x ∧ b.2 = some y ∧ y ≤ x

/-- A `gt` verdict of the whale comparator means the second element's balance
is at least the first's. -/
theorem whaleCmp_gt {a b : String × Option ℚ}
    (h : whaleCmp a b = some Ordering.gt) : balGE b a := by
  rcases hb : b.2 with _ | x <;> rcases ha : a.2 with _ | y <;>
    simp [whaleCmp, hb, ha] at h
  exact ⟨x, y, hb, ha, le_of_lt (compare_gt_iff_gt.mp h)⟩

/-- A non-`gt` verdict of the whale comparator means the first element's
balance is at least the second's. -/
theorem whaleCmp_ngt {a b : String × Option ℚ} {o : Ordering}
    (h : whaleCmp a b = some o) (hne : o ≠ Ordering.gt) : balGE a b := by
  rcases hb : b.2 with _ | x <;> rcases ha : a.2 with _ | y <;>
    simp [whaleCmp, hb, ha] at h
  subst h
  have hng : ¬ x > y := fun hgt => hne (compare_gt_iff_gt.mpr hgt)
  exact ⟨y, x, ha, hb, not_lt.mp hng⟩

/-- The head of a successful insertion is the inserted element or the old
head. -/
theorem insertM_head {cmp : α → α → Option Ordering} {x : α} :
    ∀ {ys l : List α}, insertM cmp x ys = some l →
      l.head? = some x ∨ l.head? = ys.head? := by
  intro ys
  induction ys with
  | nil => intro l h; simp [insertM] at h; subst h; left; rfl
  | cons y ys _ =>
    intro l h
    rcases hcmp : cmp x y with _ | o
    · simp [insertM, hcmp] at h
    · cases o with
      | gt =>
        simp [insertM, hcmp, Option.map_eq_some'] at h
        obtain ⟨l', _, rfl⟩ := h
        right; rfl
      | lt =>
        simp [insertM, hcmp] at h
        subst h; left; rfl
      | eq =>
        simp [insertM, hcmp] at h
        subst h; left; rfl

/-- A successful insertion into a chain-sorted list is chain-sorted, for any
relation the comparator verdicts imply. -/
theorem insertM_chain {R : α → α → Prop} {cmp : α → α → Option Ordering}
    (hgt : ∀ a b, cmp a b = some Ordering.gt → R b a)
    (hng : ∀ a b o, cmp a b = some o → o ≠ Ordering.gt → R a b) (x : α) :
    ∀ ys l, List.Chain' R ys → insertM cmp x ys = some l → List.Chain' R l := by
  intro ys
  induction ys with
  | nil =>
    intro l _ h
    simp [insertM] at h
    subst h
    exact List.chain'_singleton x
  | cons y ys ih =>
    intro l hch h
    rcases hcmp : cmp x y with _ | o
    · simp [insertM, hcmp] at h
    · cases o with
      | gt =>
        simp [insertM, hcmp, Option.map_eq_some'] at h
        obtain ⟨l', hl', rfl⟩ := h
        rw [List.chain'_cons'] at hch ⊢
        refine ⟨?_, ih l' hch.2 hl'⟩
        intro z hz
        rw [Option.mem_def] at hz
        rcases insertM_head hl' with hh | hh
        · rw [hz] at hh
          obtain rfl : x = z := (Option.some_inj.mp hh).symm
          exact hgt x y hcmp
        · exact hch.1 z (by rw [Option.mem_def, ← hh, hz])
      | lt =>
        simp [insertM, hcmp] at h
        subst h
        exact List.Chain'.cons (hng x y Ordering.lt hcmp (by decide)) hch
      | eq =>
        simp [insertM, hcmp] at h
        subst h
        exact List.Chain'.cons (hng x y Ordering.eq hcmp (by decide)) hch

/-- A successful sort is chain-sorted for any relation implied by the
comparator verdicts. -/
theorem sortM_chain {R : α → α → Prop} {cmp : α → α → Option Ordering}
    (hgt : ∀ a b, cmp a b = some Ordering.gt → R b a)
    (hng : ∀ a b o, cmp a b = some o → o ≠ Ordering.gt → R a b) :
    ∀ l s : List α, sortM cmp l = some s → List.Chain' R s := by
  intro l
  induction l with
  | nil => intro s h; simp [sortM] at h; subst h; exact List.chain'_nil
  | cons x xs ih =>
    intro s h
    simp [sortM, Option.bind_eq_some] at h
    obtain ⟨s', hs', hins⟩ := h
    exact insertM_chain hgt hng x s' s (ih s' hs') hins

/-- Descending balance order is transitive. -/
theorem balGE_trans : Transitive balGE := by
  rintro a b c ⟨x, y, hax, hby, hyx⟩ ⟨y', z, hby', hcz, hzy⟩
  rw [hby] at hby'
  obtain rfl : y = y' := by simpa using hby'
  exact ⟨x, z, hax, hcz, le_trans hzy hyx⟩

/-- Claim C7 (amended): when the sort succeeds (no NaN pair is compared),
`whales` returns at most `n` entries, pairwise sorted by balance descending.
The order is NOT a deterministic function of the balance mapping: the sort is
stable and keyed only on the balance, so ties retain the map-iteration order
(see `whales_tie_order_dependent`). -/
theorem whales_bounded_sorted (g : WalletGraph) (n : Nat)
    (l : List (String × Option ℚ)) (h : whales g n = some l) :
    l.length ≤ n ∧ List.Pairwise balGE l := by
  obtain ⟨s, hs, rfl⟩ : ∃ s, sortM whaleCmp g.balances = some s ∧ l = s.take n := by
    simp [whales, Option.map_eq_some'] at h
    obtain ⟨s, hs, hl⟩ := h
    exact ⟨s, hs, hl.symm⟩
  have hchain : List.Chain' balGE s :=
    sortM_chain (fun a b hab => whaleCmp_gt hab) (fun a b o hab hne => whaleCmp_ngt hab hne)
      g.balances s hs
  haveI : IsTrans (String × Option ℚ) balGE := ⟨fun a b c hab hbc => balGE_trans hab hbc⟩
  have hpw : List.Pairwise balGE s := List.chain'_iff_pairwise.mp hchain
  exact ⟨List.length_take_le _ _, hpw.sublist (List.take_sublist _ _)⟩

/-- Claim C7 counterexample: `gT1.balances` and `gT2.balances` are the same
balance mapping (a permutation — two iteration orders of one `HashMap`), yet
`whales` returns the tied wallets in different orders, so the order under
balance ties is not a deterministic total order. -/
theorem whales_tie_order_dependent :
    gT1.balances.Perm gT2.balances
    ∧ whales gT1 2 = some [("A", some 1), ("B", some 1)]
    ∧ whales gT2 2 = some [("B", some 1), ("A", some 1)]
    ∧ whales gT1 2 ≠ whales gT2 2 := by decide

/-- Witness for `whales_bounded_sorted` at the three-wallet graph `gW`. -/
theorem whales_bounded_sorted_witness :
    whales gW 2 = some [("B", some 7), ("C", some 5)]
    ∧ ([("B", some 7), ("C", some 5)] : List (String × Option ℚ)).length ≤ 2
    ∧ List.Pairwise balGE [("B", some 7), ("C", some 5)] :=
  ⟨by decide, (whales_bounded_sorted gW 2 [("B", some 7), ("C", some 5)] (by decide)).1,
    (whales_bounded_sorted gW 2 [("B", some 7), ("C", some 5)] (by decide)).2⟩

/-- Insertion with the whale comparator succeeds whenever the inserted
element and the list all carry comparable (non-NaN) balances; the result's
members come from the input. -/
theorem insertM_total (x : String × Option ℚ) (hx : x.2.isSome) :
    ∀ ys : List (String × Option ℚ), (∀ y ∈ ys, (y.2).isSome) →
      ∃ l, insertM whaleCmp x ys = some l ∧ ∀ z ∈ l, z = x ∨ z ∈ ys := by
  intro ys
  induction ys with
  | nil =>
    intro _
    exact ⟨[x], rfl, by simp⟩
  | cons y ys ih =>
    intro hall
    obtain ⟨u, hu⟩ := Option.isSome_iff_exists.mp hx
    obtain ⟨v, hv⟩ := Option.isSome_iff_exists.mp (hall y (by simp))
    have hcmp : whaleCmp x y = some (compare v u) := by
      simp [whaleCmp, hu, hv]
    obtain ⟨l', hl', hm⟩ := ih (fun z hz => hall z (by simp [hz]))
    cases hco : compare v u with
    | gt =>
      refine ⟨y :: l', ?_, ?_⟩
      · simp [insertM, hcmp, hco, hl']
      · intro z hz
        rcases List.mem_cons.mp hz with rfl | hz1
        · right; exact List.mem_cons_self _ _
        · rcases hm z hz1 with rfl | hz2
          · left; rfl
          · right; exact List.mem_cons_of_mem _ hz2
    | lt =>
      refine ⟨x :: y :: ys, ?_, ?_⟩
      · simp [insertM, hcmp, hco]
      · intro z hz
        rcases List.mem_cons.mp hz with rfl | hz1
        · left; rfl
        · right; exact hz1
    | eq =>
      refine ⟨x :: y :: ys, ?_, ?_⟩
      · simp [insertM, hcmp, hco]
      · intro z hz
        rcases List.mem_cons.mp hz with rfl | hz1
        · left; rfl
        · right; exact hz1

/-- Sorting with the whale comparator succeeds on any list of comparable
(non-NaN) balances. -/
theorem sortM_total :
    ∀ l : List (String × Option ℚ), (∀ a ∈ l, (a.2).isSome) →
      ∃ s, sortM whaleCmp l = some s ∧ ∀ z ∈ s, z ∈ l := by
  intro l
  induction l with
  | nil => exact fun _ => ⟨[], rfl, by simp⟩
  | cons x xs ih =>
    intro hall
    obtain ⟨s', hs', hm⟩ := ih (fun a ha => hall a (by simp [ha]))
    obtain ⟨s, hs, hm2⟩ :=
      insertM_total x (hall x (by simp)) s' (fun y hy => hall y (by simp [hm y hy]))
    refine ⟨s, ?_, ?_⟩
    · simp [sortM, hs', hs]
    · intro z hz
      rcases hm2 z hz with rfl | hz1
      · exact List.mem_cons_self _ _
      · exact List.mem_cons_of_mem _ (hm _ hz1)

/-- Claim C9 (amended): `whales` is total — it returns a result and never
reaches a failing comparison — provided no supplied balance is NaN.  With a
NaN balance the comparator's `partial_cmp(..).unwrap()` is reached with a
failing comparison and the call panics (see `whales_panics_on_nan`). -/
theorem whales_total_of_no_nan (g : WalletGraph) (n : Nat)
    (h : ∀ p ∈ g.balances, (p.2).isSome) : ∃ l, whales g n = some l := by
  obtain ⟨s, hs, _⟩ := sortM_total g.balances h
  exact ⟨s.take n, by simp [whales, hs]⟩

/-- Claim C9 counterexample: a graph holding one NaN balance makes `whales`
panic (modelled as `none`): the sort's first comparison is
`partial_cmp` on a NaN operand, whose `unwrap` fails. -/
theorem whales_panics_on_nan :
    whales gNaN 2 = none ∧ ("A", (none : Option ℚ)) ∈ gNaN.balances := by decide

/-- Witness for `whales_total_of_no_nan` at the NaN-free graph `gW`. -/
theorem whales_total_of_no_nan_witness :
    (∀ p ∈ gW.balances, (p.2).isSome) ∧ ∃ l, whales gW 3 = some l :=
  ⟨by decide, whales_total_of_no_nan gW 3 (by decide)⟩

/-! ## Clustering (claims C4, C10) -/

/-- Every wallet collected by the inner scan shares at least `m` tokens with
the seed's holdings. -/
theorem clusterScan_shares (h : String → Finset String) (m : Nat) (sH : Finset String) :
    ∀ (ws ν : List String), ∀ j ∈ (clusterScan h m sH ν ws).1, m ≤ (sH ∩ h j).card := by
  intro ws
  induction ws with
  | nil => intro ν j hj; simp [clusterScan] at hj
  | cons w rest ih =>
    intro ν j hj
    by_cases hv : w ∈ ν
    · simp only [clusterScan, if_pos hv] at hj
      exact ih ν j hj
    · by_cases hs : m ≤ (sH ∩ h w).card
      · simp only [clusterScan, if_neg hv, if_pos hs] at hj
        rcases List.mem_cons.mp hj with rfl | hj2
        · exact hs
        · exact ih (w :: ν) j hj2
      · simp only [clusterScan, if_neg hv, if_neg hs] at hj
        exact ih ν j hj

/-- The inner scan's collected members form a sublist of the scanned
wallets. -/
theorem clusterScan_sublist (h : String → Finset String) (m : Nat) (sH : Finset String) :
    ∀ (ws ν : List String), (clusterScan h m sH ν ws).1.Sublist ws := by
  intro ws
  induction ws with
  | nil => intro ν; simp [clusterScan]
  | cons w rest ih =>
    intro ν
    by_cases hv : w ∈ ν
    · simp only [clusterScan, if_pos hv]
      exact (ih ν).cons w
    · by_cases hs : m ≤ (sH ∩ h w).card
      · simp only [clusterScan, if_neg hv, if_pos hs]
        exact (ih (w :: ν)).cons₂ w
      · simp only [clusterScan, if_neg hv, if_neg hs]
        exact (ih ν).cons w

/-- The visited set coming out of the inner scan is exactly the incoming
visited set plus the collected members. -/
theorem clusterScan_visited_iff (h : String → Finset String) (m : Nat) (sH : Finset String) :
    ∀ (ws ν : List String) (x : String),
      x ∈ (clusterScan h m sH ν ws).2 ↔ x ∈ (clusterScan h m sH ν ws).1 ∨ x ∈ ν := by
  intro ws
  induction ws with
  | nil => intro ν x; simp [clusterScan]
  | cons w rest ih =>
    intro ν x
    by_cases hv : w ∈ ν
    · simp only [clusterScan, if_pos hv]
      exact ih ν x
    · by_cases hs : m ≤ (sH ∩ h w).card
      · simp only [clusterScan, if_neg hv, if_pos hs]
        rw [ih (w :: ν) x]
        simp only [List.mem_cons]
        tauto
      · simp only [clusterScan, if_neg hv, if_neg hs]
        exact ih ν x

/-- The inner scan only collects wallets that were not already visited. -/
theorem clusterScan_fresh (h : String → Finset String) (m : Nat) (sH : Finset String) :
    ∀ (ws ν : List String), ∀ j ∈ (clusterScan h m sH ν ws).1, j ∉ ν := by
  intro ws
  induction ws with
  | nil => intro ν j hj; simp [clusterScan] at hj
  | cons w rest ih =>
    intro ν j hj
    by_cases hv : w ∈ ν
    · simp only [clusterScan, if_pos hv] at hj
      exact ih ν j hj
    · by_cases hs : m ≤ (sH ∩ h w).card
      · simp only [clusterScan, if_neg hv, if_pos hs] at hj
        rcases List.mem_cons.mp hj with rfl | hj2
        · exact hv
        · exact fun hjν => ih (w :: ν) j hj2 (List.mem_cons_of_mem _ hjν)
      · simp only [clusterScan, if_neg hv, if_neg hs] at hj
        exact ih ν j hj

/-- Every emitted cluster is a seed followed by a non-empty tail of wallets
each sharing at least `m` tokens with the seed. -/
theorem clustersLoop_sound (h : String → Finset String) (m : Nat) :
    ∀ (ws ν : List String), ∀ c ∈ clustersLoop h m ν ws,
      ∃ i t, c = i :: t ∧ t ≠ [] ∧ ∀ j ∈ t, m ≤ ((h i) ∩ (h j)).card := by
  intro ws
  induction ws with
  | nil => intro ν c hc; simp [clustersLoop] at hc
  | cons w rest ih =>
    intro ν c hc
    by_cases hv : w ∈ ν
    · simp only [clustersLoop, if_pos hv] at hc
      exact ih ν c hc
    · by_cases he : (clusterScan h m (h w) ν rest).1.isEmpty
      · simp only [clustersLoop, if_neg hv, if_pos he] at hc
        exact ih _ c hc
      · simp only [clustersLoop, if_neg hv, if_neg he] at hc
        rcases List.mem_cons.mp hc with rfl | hc2
        · exact ⟨w, (clusterScan h m (h w) ν rest).1, rfl,
            fun hemp => he (by simp [hemp]),
            fun j hj => clusterScan_shares h m (h w) rest ν j hj⟩
        · exact ih _ c hc2

/-- Over a duplicate-free wallet list, the emitted clusters are internally
duplicate-free, pairwise disjoint, and drawn from unvisited wallets. -/
theorem clustersLoop_partition (h : String → Finset String) (m : Nat) :
    ∀ (ws ν : List String), ws.Nodup →
      ((∀ c ∈ clustersLoop h m ν ws, c.Nodup)
       ∧ List.Pairwise (fun c1 c2 => ∀ x ∈ c1, x ∉ c2) (clustersLoop h m ν ws)
       ∧ ∀ c ∈ clustersLoop h m ν ws, ∀ x ∈ c, x ∈ ws ∧ x ∉ ν) := by
  intro ws
  induction ws with
  | nil => intro ν _; simp [clustersLoop]
  | cons w rest ih =>
    intro ν hnd
    obtain ⟨hwrest, hndrest⟩ := List.nodup_cons.mp hnd
    by_cases hv : w ∈ ν
    · simp only [clustersLoop, if_pos hv]
      obtain ⟨a1, a2, a3⟩ := ih ν hndrest
      exact ⟨a1, a2, fun c hc x hx =>
        ⟨List.mem_cons_of_mem _ (a3 c hc x hx).1, (a3 c hc x hx).2⟩⟩
    · by_cases he : (clusterScan h m (h w) ν rest).1.isEmpty
      · simp only [clustersLoop, if_neg hv, if_pos he]
        obtain ⟨a1, a2, a3⟩ := ih ((clusterScan h m (h w) ν rest).2) hndrest
        refine ⟨a1, a2, fun c hc x hx => ?_⟩
        obtain ⟨hx1, hx2⟩ := a3 c hc x hx
        exact ⟨List.mem_cons_of_mem _ hx1, fun hxν =>
          hx2 ((clusterScan_visited_iff h m (h w) rest ν x).mpr (Or.inr hxν))⟩
      · simp only [clustersLoop, if_neg hv, if_neg he]
        obtain ⟨a1, a2, a3⟩ := ih (w :: (clusterScan h m (h w) ν rest).2) hndrest
        have hsub := clusterScan_sublist h m (h w) rest ν
        have hsubset : ∀ x ∈ (clusterScan h m (h w) ν rest).1, x ∈ rest :=
          fun x hx => hsub.subset hx
        refine ⟨?_, ?_, ?_⟩
        · intro c hc
          rcases List.mem_cons.mp hc with rfl | hc2
          · exact List.nodup_cons.mpr
              ⟨fun hw1 => hwrest (hsubset _ hw1), hsub.nodup hndrest⟩
          · exact a1 c hc2
        · refine List.pairwise_cons.mpr ⟨?_, a2⟩
          intro c2 hc2 x hx hxc2
          obtain ⟨hx1, hx2⟩ := a3 c2 hc2 x hxc2
          rcases List.mem_cons.mp hx with rfl | hxp1
          · exact hx2 (List.mem_cons_self _ _)
          · exact hx2 (List.mem_cons_of_mem _
              ((clusterScan_visited_iff h m (h w) rest ν x).mpr (Or.inl hxp1)))
        · intro c hc x hx
          rcases List.mem_cons.mp hc with rfl | hc2
          · rcases List.mem_cons.mp hx with rfl | hxp1
            · exact ⟨List.mem_cons_self _ _, hv⟩
            · exact ⟨List.mem_cons_of_mem _ (hsubset _ hxp1),
                clusterScan_fresh h m (h w) rest ν x hxp1⟩
          · obtain ⟨hx1, hx2⟩ := a3 c hc2 x hx
            exact ⟨List.mem_cons_of_mem _ hx1, fun hxν => hx2 (List.mem_cons_of_mem _
              ((clusterScan_visited_iff h m (h w) rest ν x).mpr (Or.inr hxν)))⟩

/-- Claim C4: every emitted cluster has size at least 2 and consists of a
seed followed by members each sharing at least `minShared` tokens with the
seed; membership is determined solely against the seed — on `gEx` the
cluster `[A, B, C]` is emitted although its non-seed members `B` and `C`
share no token with each other. -/
theorem clusters_sound (g : WalletGraph) (minShared : Nat) :
    (∀ c ∈ clusters g minShared, 2 ≤ c.length
      ∧ ∃ i t, c = i :: t ∧ ∀ j ∈ t, minShared ≤ ((holdingsOf g i) ∩ (holdingsOf g j)).card)
    ∧ (clusters gEx 1 = [["A", "B", "C"]]
      ∧ holdingsOf gEx "B" ∩ holdingsOf gEx "C" = ∅) := by
  constructor
  · intro c hc
    unfold clusters at hc
    obtain ⟨i, t, rfl, ht, hsh⟩ :=
      clustersLoop_sound (holdingsOf g) minShared (g.holdings.map Prod.fst) [] c hc
    refine ⟨?_, i, t, rfl, hsh⟩
    cases t with
    | nil => exact absurd rfl ht
    | cons a t2 => simp
  · exact ⟨by decide, by decide⟩

/-- Witness for `clusters_sound` at the concrete graph `gEx`. -/
theorem clusters_sound_witness :
    ["A", "B", "C"] ∈ clusters gEx 1
    ∧ (2 ≤ (["A", "B", "C"] : List String).length
       ∧ ∃ i t, (["A", "B", "C"] : List String) = i :: t
         ∧ ∀ j ∈ t, 1 ≤ ((holdingsOf gEx i) ∩ (holdingsOf gEx j)).card) :=
  ⟨by decide, (clusters_sound gEx 1).1 ["A", "B", "C"] (by decide)⟩

/-- Claim C10: over a duplicate-free key set (as a `HashMap`'s keys are),
the emitted clusters are pairwise disjoint and no wallet appears twice
within one cluster. -/
theorem clusters_member_disjoint (g : WalletGraph) (minShared : Nat)
    (hnd : (g.holdings.map Prod.fst).Nodup) :
    (∀ c ∈ clusters g minShared, c.Nodup)
    ∧ List.Pairwise (fun c1 c2 => ∀ x ∈ c1, x ∉ c2) (clusters g minShared) := by
  unfold clusters
  obtain ⟨a1, a2, _⟩ :=
    clustersLoop_partition (holdingsOf g) minShared (g.holdings.map Prod.fst) [] hnd
  exact ⟨a1, a2⟩

/-- Witness for `clusters_member_disjoint` at the concrete graph `gEx`. -/
theorem clusters_member_disjoint_witness :
    (gEx.holdings.map Prod.fst).Nodup
    ∧ (∀ c ∈ clusters gEx 1, c.Nodup)
    ∧ List.Pairwise (fun c1 c2 => ∀ x ∈ c1, x ∉ c2) (clusters gEx 1) :=
  ⟨by decide, (clusters_member_disjoint gEx 1 (by decide)).1,
    (clusters_member_disjoint gEx 1 (by decide)).2⟩
